import Mathlib

/-!
Shallow embedding of the core algorithms of the vertexexpress2api-golang
gateway, together with proofs about them.

The embedding models:
* the streaming reasoning-tag splitter of `internal/handlers/oai.go`
  (`StreamingReasoningProcessor` with `ProcessChunk`, `findPartialTagStart`
  and `FlushRemaining`);
* the retry/failover shell shared by `Client.GenerateContent`,
  `Client.StreamGenerateContent` and `ChatCompletionsHandler`, together with
  `KeyManager.NextKeyIndex` and the index clamp of `PickAuthAtIndex`;
* the round-robin branch of `KeyManager.PickAuth`;
* the project-identifier cache of `KeyManager.getProjectID`;
* `mapFinishReason`, `generateToolCallID`, and the message-conversion loop of
  `ToGeminiRequest` from the translate package;
* the authentication middleware of `internal/auth/middleware.go`.

Go strings are modelled as `List Char`; the sentinel delimiters are ASCII, so
character positions coincide with the byte positions used by the Go code.
Iteration bounds that Go expresses with `for` loops are modelled with an
explicit fuel argument (always called with sufficient fuel, see
`procLoop_fuel_congr`).
-/

namespace VX

/-! ### Streaming tag splitter (internal/handlers/oai.go) -/

/-- `ThinkingTagMarker` from oai.go. -/
def thinkingTagMarker : String := "vertex_think_tag"

/-- The open delimiter, built as in `NewStreamingReasoningProcessor`. -/
def openTag : List Char := ("<" ++ thinkingTagMarker ++ ">").data

/-- The close delimiter, built as in `NewStreamingReasoningProcessor`. -/
def closeTag : List Char := ("</" ++ thinkingTagMarker ++ ">").data

/-- Model of Go `strings.Index`: index of the first occurrence of `pat` in
the text, `none` when there is none (Go returns `-1`). -/
def strIndex (pat : List Char) : List Char → Option Nat
  | [] => if pat = [] then some 0 else none
  | c :: rest =>
    if pat.isPrefixOf (c :: rest) then some 0
    else (strIndex pat rest).map (· + 1)

/-- `StreamingReasoningProcessor.findPartialTagStart`: the Go loop tries
`i = 1, 2, ...` while `i < len(tag) && i <= len(buf)` and returns
`len(buf) - i` for the first `i` such that the length-`i` suffix of `buf`
equals the length-`i` prefix of the tag. -/
def findPartialTagStart (tag buf : List Char) : Option Nat :=
  ((List.range' 1 (min (tag.length - 1) buf.length)).find?
      (fun i => buf.drop (buf.length - i) == tag.take i)).map
    (fun i => buf.length - i)

/-- Result of one run of the `for` loop inside `ProcessChunk`: the updated
`inTag` flag, the retained buffer, and the content/reasoning emitted. -/
structure LoopOut where
  inTag : Bool
  buffer : List Char
  content : List Char
  reasoning : List Char
deriving DecidableEq

/-- The `for` loop of `StreamingReasoningProcessor.ProcessChunk`, run on
`buffer ++ chunk`.  The fuel argument only bounds the iteration count; each
loop iteration that does not terminate consumes at least one character, so
`buf.length + 1` fuel always suffices. -/
def procLoop : Nat → Bool → List Char → LoopOut
  | 0, tagFlag, buf => ⟨tagFlag, buf, [], []⟩
  | fuel + 1, true, buf =>
    match strIndex closeTag buf with
    | none =>
      let keep := buf.length + 1 - closeTag.length
      ⟨true, buf.drop keep, [], buf.take keep⟩
    | some idx =>
      let o := procLoop fuel false (buf.drop (idx + closeTag.length))
      ⟨o.inTag, o.buffer, o.content, buf.take idx ++ o.reasoning⟩
  | fuel + 1, false, buf =>
    match strIndex openTag buf with
    | none =>
      match findPartialTagStart openTag buf with
      | some p => ⟨false, buf.drop p, buf.take p, []⟩
      | none => ⟨false, [], buf, []⟩
    | some idx =>
      let o := procLoop fuel true (buf.drop (idx + openTag.length))
      ⟨o.inTag, o.buffer, buf.take idx ++ o.content, o.reasoning⟩

/-- `procLoop` with the canonical (always sufficient) fuel. -/
def procRun (tagFlag : Bool) (buf : List Char) : LoopOut :=
  procLoop (buf.length + 1) tagFlag buf

/-- Sequential composition of two loop runs: the second run continues from
the first run's state, and the outputs are concatenated. -/
def composeOut (a b : LoopOut) : LoopOut :=
  ⟨b.inTag, b.buffer, a.content ++ b.content, a.reasoning ++ b.reasoning⟩

/-- Mutable state of a `StreamingReasoningProcessor` between chunks. -/
structure Proc where
  inTag : Bool
  buffer : List Char
deriving DecidableEq

/-- A freshly created processor. -/
def initProc : Proc := ⟨false, []⟩

/-- `StreamingReasoningProcessor.ProcessChunk`: append the chunk to the
pending buffer, run the loop, return the new state and the emitted
(content, reasoning) pair. -/
def ProcessChunk (p : Proc) (chunk : List Char) : Proc × List Char × List Char :=
  let buf := p.buffer ++ chunk
  let o := procRun p.inTag buf
  (⟨o.inTag, o.buffer⟩, o.content, o.reasoning)

/-- `StreamingReasoningProcessor.FlushRemaining`. -/
def FlushRemaining (p : Proc) : List Char × List Char :=
  if p.inTag then ([], p.buffer) else (p.buffer, [])

/-- Feed a list of fragments through `ProcessChunk` one at a time, flush at
end of stream, and concatenate the two output channels. -/
def runAux (p : Proc) : List (List Char) → List Char × List Char
  | [] => FlushRemaining p
  | ch :: rest =>
    let s := ProcessChunk p ch
    let t := runAux s.1 rest
    (s.2.1 ++ t.1, s.2.2 ++ t.2)

/-- Total streamed output (content, reasoning) for a list of fragments,
starting from a fresh processor, including the end-of-stream flush. -/
def runStream (chunks : List (List Char)) : List Char × List Char :=
  runAux initProc chunks

/-- Like `runAux` but without the end-of-stream flush: the state after the
fragments together with the output emitted so far. -/
def runSoFar (p : Proc) : List (List Char) → Proc × List Char × List Char
  | [] => (p, [], [])
  | ch :: rest =>
    let s := ProcessChunk p ch
    let t := runSoFar s.1 rest
    (t.1, s.2.1 ++ t.2.1, s.2.2 ++ t.2.2)

/-- A text made of zero or more delimiter-bounded regions: each element of
`segs` is (text outside a region, body of the following region) and `tail`
is the text after the last region. -/
def renderSegs : List (List Char × List Char) → List Char → List Char
  | [], tail => tail
  | (o, b) :: rest, tail => o ++ openTag ++ b ++ closeTag ++ renderSegs rest tail

/-- `SufPre tag l s`: the suffix of `l` starting at position `s` is a
nonempty proper prefix of `tag` — the situation in which the splitter must
buffer a possible partial delimiter. -/
def SufPre (tag l : List Char) (s : Nat) : Prop :=
  s < l.length ∧ l.length - s < tag.length ∧ l.drop s = tag.take (l.length - s)

/-- The tag's first character does not occur again in the tag.  Both
delimiters have this property (their only `<` is at position 0), which makes
the buffered partial-delimiter suffix unique. -/
def NoRepeatHead (tag : List Char) : Prop :=
  ∀ k < tag.length, 0 < k → tag[k]? ≠ tag[0]?

/-! ### Retry/failover shell (vertex client and ChatCompletionsHandler) -/

/-- `KeyManager.NextKeyIndex`. -/
def NextKeyIndex (keyCount currentIndex : Nat) : Nat :=
  if keyCount ≤ 1 then currentIndex else (currentIndex + 1) % keyCount

/-- The index clamp performed by `KeyManager.PickAuthAtIndex`: an
out-of-range index falls back to `0`. -/
def pickAuthAtIndexUsed (keyCount : Nat) (index : Int) : Nat :=
  if index < 0 ∨ (keyCount : Int) ≤ index then 0 else index.toNat

/-- The retry loop shared by `Client.GenerateContent`,
`Client.StreamGenerateContent` and `ChatCompletionsHandler`:
`for attempt := 0; attempt <= maxRetries; attempt++`, starting with
`keyIndex = -1` (meaning: use the policy pick).  `pick a` is the index the
selection policy would return for the `PickAuth` call of attempt `a`, and
`outcome a` tells whether attempt `a` succeeds.  Returns the list of key
indices used by the performed attempts and whether the call succeeded. -/
def retryGo (switchKey : Bool) (keyCount : Nat) (pick : Nat → Nat)
    (outcome : Nat → Bool) : Nat → Nat → Int → List Nat × Bool
  | 0, _, _ => ([], false)
  | fuel + 1, attempt, keyIndex =>
    let used : Nat :=
      if keyIndex < 0 then pick attempt else pickAuthAtIndexUsed keyCount keyIndex
    if outcome attempt then ([used], true)
    else
      let keyIndex2 : Int :=
        if switchKey ∧ 1 < keyCount then (NextKeyIndex keyCount used : Int)
        else keyIndex
      let r := retryGo switchKey keyCount pick outcome fuel (attempt + 1) keyIndex2
      (used :: r.1, r.2)

/-- The whole retry loop: `maxRetries + 1` available attempts, attempt
counter starting at `0`, `keyIndex` starting at `-1`. -/
def retryAttempts (maxRetries : Nat) (switchKey : Bool) (keyCount : Nat)
    (pick : Nat → Nat) (outcome : Nat → Bool) : List Nat × Bool :=
  retryGo switchKey keyCount pick outcome (maxRetries + 1) 0 (-1)

/-! ### Round-robin selection (KeyManager.PickAuth) -/

/-- The round-robin branch of `KeyManager.PickAuth`: return the cursor and
advance it by one modulo the pool size. -/
def pickAuthRoundRobin (n cursor : Nat) : Nat × Nat :=
  (cursor, (cursor + 1) % n)

/-- The indices returned by `k` consecutive round-robin picks starting from
a given cursor. -/
def pickAuthSeq (n : Nat) : Nat → Nat → List Nat
  | _, 0 => []
  | cursor, k + 1 =>
    let s := pickAuthRoundRobin n cursor
    s.1 :: pickAuthSeq n s.2 k

/-! ### Project-identifier cache (KeyManager.getProjectID) -/

/-- `KeyManager.getProjectID`: consult the cache; on a miss, discover the
identifier (`discover` models `discoverProjectID`) and insert it.  Returns
the updated cache and the resolved identifier. -/
def getProjectIDStep (discover : String → String) (cache : String → Option String)
    (key : String) : (String → Option String) × String :=
  match cache key with
  | some v => (cache, v)
  | none =>
    let v := discover key
    (fun k => if k = key then some v else cache k, v)

/-- The cache after a sequence of resolutions (one per request). -/
def applyResolves (discover : String → String) :
    List String → (String → Option String) → (String → Option String)
  | [], cache => cache
  | key :: rest, cache =>
    applyResolves discover rest (getProjectIDStep discover cache key).1

/-! ### Finish-reason mapping (translate package) -/

/-- `mapFinishReason` from the translate package. -/
def mapFinishReason (geminiReason : String) : String :=
  if geminiReason = "STOP" then "stop"
  else if geminiReason = "MAX_TOKENS" then "length"
  else if geminiReason = "SAFETY" then "content_filter"
  else if geminiReason = "RECITATION" then "content_filter"
  else if geminiReason = "OTHER" then "stop"
  else if geminiReason = "" then "" else "stop"

/-! ### Tool-call id generation (translate package)

`generateToolCallID` computes
`"call_" + base64.RawURLEncoding.EncodeToString([]byte(string(rune(counter))))[:8]`.
The slice `[:8]` panics when the encoded string is shorter than 8 bytes, so
the model returns an `Option`, with `none` for the panic. -/

/-- Go conversion `rune(n)` for an `int64` value: wrap to 32 bits. -/
def int32Wrap (n : Int) : Int :=
  (n + 2147483648) % 4294967296 - 2147483648

/-- Go conversion `string(r)`: an invalid code point (negative, surrogate or
above U+10FFFF) is replaced with U+FFFD. -/
def runeCodepoint (r : Int) : Nat :=
  if (0 ≤ r ∧ r < 55296) ∨ (57344 ≤ r ∧ r ≤ 1114111) then r.toNat else 65533

/-- UTF-8 encoding of a code point, as a list of byte values. -/
def utf8Encode (c : Nat) : List Nat :=
  if c < 128 then [c]
  else if c < 2048 then [192 + c / 64, 128 + c % 64]
  else if c < 65536 then [224 + c / 4096, 128 + c / 64 % 64, 128 + c % 64]
  else [240 + c / 262144, 128 + c / 4096 % 64, 128 + c / 64 % 64, 128 + c % 64]

/-- The URL-safe base64 alphabet. -/
def base64URLAlphabet : List Char :=
  "ABCDEFGHIJKLMNOPQRSTUVWXYZabcdefghijklmnopqrstuvwxyz0123456789-_".data

/-- Character of the URL-safe base64 alphabet at a 6-bit index. -/
def b64c (n : Nat) : Char := base64URLAlphabet.getD n 'A'

/-- `base64.RawURLEncoding.EncodeToString` (no padding). -/
def base64RawURLEncode : List Nat → List Char
  | [] => []
  | [b0] => [b64c (b0 / 4), b64c (b0 % 4 * 16)]
  | [b0, b1] => [b64c (b0 / 4), b64c (b0 % 4 * 16 + b1 / 16), b64c (b1 % 16 * 4)]
  | b0 :: b1 :: b2 :: rest =>
    b64c (b0 / 4) :: b64c (b0 % 4 * 16 + b1 / 16) ::
      b64c (b1 % 16 * 4 + b2 / 64) :: b64c (b2 % 64) :: base64RawURLEncode rest

/-- Go slice expression `s[:hi]` on a string: panics (`none`) when `hi`
exceeds the length. -/
def goStringSlice (s : List Char) (hi : Nat) : Option (List Char) :=
  if hi ≤ s.length then some (s.take hi) else none

/-- `generateToolCallID` for a given (already incremented) counter value;
`none` models the run-time panic of the out-of-range slice. -/
def generateToolCallID (counter : Int) : Option (List Char) :=
  (goStringSlice (base64RawURLEncode (utf8Encode (runeCodepoint (int32Wrap counter)))) 8).map
    (fun s => "call_".data ++ s)

/-! ### Message conversion (ToGeminiRequest, translate package) -/

/-- One element of a content-part array; only the `type`/`text` fields
matter for text extraction. -/
structure OAIPart where
  type : String
  text : String
deriving DecidableEq

/-- OpenAI message content: JSON `null`, a plain string, or an array of
content parts. -/
inductive OAIContent
  | null
  | str (s : String)
  | arr (parts : List OAIPart)

/-- An OpenAI tool call (id and type omitted: the conversion only reads the
function name and raw arguments). -/
structure OAIToolCall where
  name : String
  arguments : String
deriving DecidableEq

/-- An inbound OpenAI message. -/
structure OAIMessage where
  role : String
  content : OAIContent
  name : String
  toolCalls : List OAIToolCall

/-- `extractTextFromParts`: texts of the `type = "text"` parts, joined with
newlines. -/
def extractTextFromParts (parts : List OAIPart) : String :=
  String.intercalate "\n" ((parts.filter (fun p => p.type == "text")).map (fun p => p.text))

/-- `extractTextContent`. -/
def extractTextContent : OAIContent → String
  | .null => ""
  | .str s => s
  | .arr parts => extractTextFromParts parts

/-- A Gemini content part, as produced by the message conversion.  Function
call arguments and function response bodies are carried as their raw source
strings; the Go code deterministically JSON-decodes them (with a fallback)
from exactly these strings. -/
inductive GPart
  | text (s : String)
  | functionCall (name : String) (arguments : String)
  | functionResponse (name : String) (response : String)
deriving DecidableEq

/-- A Gemini `Content` (one turn). -/
structure GContent where
  role : String
  parts : List GPart
deriving DecidableEq

/-- The message-conversion loop of `ToGeminiRequest`: returns the collected
system-instruction parts and the converted turn sequence.  `userParts`
abstracts `convertContentToParts` (text/image conversion of user content),
which the loop calls but whose internals are independent of the loop. -/
def convertMessages (userParts : OAIContent → List GPart) :
    List OAIMessage → List GPart × List GContent
  | [] => ([], [])
  | msg :: rest =>
    let r := convertMessages userParts rest
    if msg.role = "system" then
      let text := extractTextContent msg.content
      (if text ≠ "" then GPart.text text :: r.1 else r.1, r.2)
    else if msg.role = "user" then
      let parts := userParts msg.content
      (r.1, if parts ≠ [] then ⟨"user", parts⟩ :: r.2 else r.2)
    else if msg.role = "assistant" then
      let parts :=
        if msg.toolCalls ≠ [] then
          msg.toolCalls.map (fun tc => GPart.functionCall tc.name tc.arguments)
        else
          let t := extractTextContent msg.content
          if t ≠ "" then [GPart.text t] else []
      (r.1, if parts ≠ [] then ⟨"model", parts⟩ :: r.2 else r.2)
    else if msg.role = "tool" then
      (r.1, ⟨"user", [GPart.functionResponse msg.name (extractTextContent msg.content)]⟩ :: r.2)
    else r

/-- The system-instruction field as the specification describes it: the
texts of the system turns concatenated into one newline-joined string.
This definition follows the specification wording, for comparison with the
code's behaviour. -/
def systemInstructionJoined (msgs : List OAIMessage) : List GPart :=
  [GPart.text (String.intercalate "\n"
    ((msgs.filter (fun m => m.role == "system")).map (fun m => extractTextContent m.content)))]

/-! ### Authentication middleware (internal/auth/middleware.go) -/

/-- The parts of an HTTP request inspected by `extractAPIKey`.  Header and
query values are character lists (like the rest of the embedding). -/
structure HTTPRequest where
  authorization : List Char
  xGoogApiKey : List Char
  queryKey : List Char
deriving DecidableEq

/-- `extractAPIKey`: bearer Authorization header, then `x-goog-api-key`
header, then the `key` query parameter.  `"Bearer "` has 7 characters, so
`strings.TrimPrefix` is `List.drop 7` under the `HasPrefix` guard. -/
def extractAPIKey (r : HTTPRequest) : List Char :=
  if "Bearer ".data.isPrefixOf r.authorization then r.authorization.drop 7
  else if r.xGoogApiKey ≠ [] then r.xGoogApiKey
  else if r.queryKey ≠ [] then r.queryKey
  else []

/-- What the middleware does with a request. -/
inductive AuthResult
  | forwarded
  | unauthorized
deriving DecidableEq

/-- `Middleware`: skip the check when no shared key is configured, otherwise
compare the extracted key with the configured one. -/
def Middleware (cfgAPIKey : List Char) (r : HTTPRequest) : AuthResult :=
  if cfgAPIKey = [] then .forwarded
  else
    let apiKey := extractAPIKey r
    if apiKey = [] ∨ apiKey ≠ cfgAPIKey then .unauthorized else .forwarded

/-! ## Theorems -/

/-! ### C8: finish-reason table -/

/-- Claim C8: the finish-reason translation maps the normal stop to
`"stop"`, the length limit to `"length"`, safety and recitation to
`"content_filter"`, the empty reason to the empty string, and every other
non-empty reason to `"stop"`; being a Lean function it is total. -/
theorem mapFinishReason_table :
    mapFinishReason "STOP" = "stop" ∧
    mapFinishReason "MAX_TOKENS" = "length" ∧
    mapFinishReason "SAFETY" = "content_filter" ∧
    mapFinishReason "RECITATION" = "content_filter" ∧
    mapFinishReason "" = "" ∧
    ∀ r : String, r ≠ "" → r ≠ "STOP" → r ≠ "MAX_TOKENS" → r ≠ "SAFETY" →
      r ≠ "RECITATION" → mapFinishReason r = "stop" := by
  refine ⟨rfl, rfl, rfl, rfl, rfl, ?_⟩
  intro r h0 h1 h2 h3 h4
  unfold mapFinishReason
  split_ifs <;> simp_all

/-- Witness for C8 at a concrete unlisted reason. -/
theorem mapFinishReason_table_witness :
    mapFinishReason "FINISH_REASON_UNSPECIFIED" = "stop" :=
  mapFinishReason_table.2.2.2.2.2 "FINISH_REASON_UNSPECIFIED"
    (by decide) (by decide) (by decide) (by decide) (by decide)

/-! ### C10: authentication middleware -/

/-- Claim C10: with the empty configured key every request is forwarded, and
a 401 rejection happens exactly when a non-empty key is configured and the
extracted value (bearer header, then `x-goog-api-key`, then `key` query
parameter) is missing or different. -/
theorem middleware_auth_check (cfgKey : List Char) (r : HTTPRequest) :
    (cfgKey = [] → Middleware cfgKey r = .forwarded) ∧
    (Middleware cfgKey r = .unauthorized ↔
      cfgKey ≠ [] ∧ (extractAPIKey r = [] ∨ extractAPIKey r ≠ cfgKey)) := by
  by_cases h1 : cfgKey = []
  · simp [Middleware, h1]
  · by_cases h2 : extractAPIKey r = [] ∨ extractAPIKey r ≠ cfgKey
    · simp [Middleware, h1, h2]
    · simp [Middleware, h1, h2]

/-- Witness for C10: a wrong bearer token against a configured key is
rejected. -/
theorem middleware_auth_check_witness :
    Middleware "secret".data ⟨"Bearer nope".data, [], []⟩ = .unauthorized :=
  (middleware_auth_check "secret".data ⟨"Bearer nope".data, [], []⟩).2.mpr
    ⟨by decide, Or.inr (by decide)⟩

/-! ### C7: project-identifier cache permanence -/

/-- Claim C7: once a project identifier is cached for a credential, any
sequence of later resolutions leaves that entry intact, and resolving that
credential again returns the cached identifier. -/
theorem projectCache_permanent (discover : String → String) (ops : List String)
    (cache : String → Option String) (k v : String) (h : cache k = some v) :
    applyResolves discover ops cache k = some v ∧
    (getProjectIDStep discover (applyResolves discover ops cache) k).2 = v := by
  have main : ∀ (ops : List String) (cache : String → Option String),
      cache k = some v → applyResolves discover ops cache k = some v := by
    intro ops
    induction ops with
    | nil => intro cache h; exact h
    | cons key rest ih =>
      intro cache h
      simp only [applyResolves]
      apply ih
      unfold getProjectIDStep
      cases hc : cache key with
      | some w => simpa using h
      | none =>
        have hk : k ≠ key := fun he => by rw [he, hc] at h; cases h
        simpa [hk] using h
  have h1 := main ops cache h
  refine ⟨h1, ?_⟩
  unfold getProjectIDStep
  rw [h1]

/-- Witness for C7 at a concrete cache, key and resolution sequence. -/
theorem projectCache_permanent_witness :
    applyResolves (fun _ => "discovered") ["keyB", "keyA"]
      (fun s => if s = "keyA" then some "proj-1" else none) "keyA" = some "proj-1" :=
  (projectCache_permanent (fun _ => "discovered") ["keyB", "keyA"]
    (fun s => if s = "keyA" then some "proj-1" else none) "keyA" "proj-1" (by decide)).1

/-! ### C5: round-robin selection -/

/-- The sequence of round-robin picks is an explicit modular progression. -/
theorem pickAuthSeq_formula (n : Nat) (hn : 0 < n) :
    ∀ (k c : Nat), c < n →
      pickAuthSeq n c k = (List.range k).map (fun j => (c + j) % n) := by
  intro k
  induction k with
  | zero => intro c _; simp [pickAuthSeq]
  | succ k ih =>
    intro c hc
    have hc1 : (c + 1) % n < n := Nat.mod_lt _ hn
    simp only [pickAuthSeq, pickAuthRoundRobin]
    rw [ih _ hc1, List.range_succ_eq_map]
    simp only [List.map_cons, List.map_map, Function.comp, List.cons.injEq]
    refine ⟨(Nat.mod_eq_of_lt hc).symm, ?_⟩
    apply List.map_congr_left
    intro j _
    rw [Nat.mod_add_mod]
    congr 1
    omega

/-- Claim C5: over a pool of `N` credentials, `N` consecutive round-robin
picks starting at any cursor follow the fixed cyclic order
`cursor, cursor+1, ...` modulo `N`, are pairwise distinct, and visit every
index; with 3 credentials, picks 1 through 6 yield 0,1,2,0,1,2. -/
theorem roundRobin_cycle (n cursor : Nat) (hn : 0 < n) (hc : cursor < n) :
    pickAuthSeq n cursor n = (List.range n).map (fun k => (cursor + k) % n) ∧
    (pickAuthSeq n cursor n).Nodup ∧
    (∀ i, i < n → i ∈ pickAuthSeq n cursor n) ∧
    pickAuthSeq 3 0 6 = [0, 1, 2, 0, 1, 2] := by
  have hf := pickAuthSeq_formula n hn n cursor hc
  refine ⟨hf, ?_, ?_, by decide⟩
  · rw [hf]
    refine List.Nodup.map_on ?_ (List.nodup_range n)
    intro i hi j hj hij
    rw [List.mem_range] at hi hj
    have h2 : i ≡ j [MOD n] := Nat.ModEq.add_left_cancel' cursor hij
    have h3 : i % n = j % n := h2
    rwa [Nat.mod_eq_of_lt hi, Nat.mod_eq_of_lt hj] at h3
  · intro i hi
    rw [hf]
    simp only [List.mem_map, List.mem_range]
    by_cases hci : cursor ≤ i
    · refine ⟨i - cursor, by omega, ?_⟩
      have he : cursor + (i - cursor) = i := by omega
      rw [he, Nat.mod_eq_of_lt hi]
    · refine ⟨i + n - cursor, by omega, ?_⟩
      have he : cursor + (i + n - cursor) = i + n := by omega
      rw [he, Nat.add_mod_right, Nat.mod_eq_of_lt hi]

/-- Witness for C5 with 3 credentials and the initial cursor. -/
theorem roundRobin_cycle_witness : pickAuthSeq 3 0 6 = [0, 1, 2, 0, 1, 2] :=
  (roundRobin_cycle 3 0 (by decide) (by decide)).2.2.2

/-! ### C6: tool-call id generation -/

/-- A code point encodes to at most 4 UTF-8 bytes. -/
theorem utf8Encode_length_le (c : Nat) : (utf8Encode c).length ≤ 4 := by
  unfold utf8Encode
  split_ifs <;> simp

/-- Unpadded base64 of at most 4 bytes has at most 6 characters. -/
theorem base64RawURLEncode_length_le (bs : List Nat) (h : bs.length ≤ 4) :
    (base64RawURLEncode bs).length ≤ 6 := by
  match bs with
  | [] => simp [base64RawURLEncode]
  | [b0] => simp [base64RawURLEncode]
  | [b0, b1] => simp [base64RawURLEncode]
  | [b0, b1, b2] => simp [base64RawURLEncode]
  | [b0, b1, b2, b3] => simp [base64RawURLEncode]
  | b0 :: b1 :: b2 :: b3 :: b4 :: rest => simp at h

/-- Claim C6 is violated by the code: `generateToolCallID` slices `[:8]` a
base64 string that has at most 6 characters (a rune is at most 4 UTF-8
bytes), so it panics for every counter value instead of producing an id. -/
theorem generateToolCallID_panics (counter : Int) : generateToolCallID counter = none := by
  unfold generateToolCallID goStringSlice
  have h1 := utf8Encode_length_le (runeCodepoint (int32Wrap counter))
  have h2 := base64RawURLEncode_length_le _ h1
  rw [if_neg (by omega)]
  rfl

/-! ### C4: retry loop -/

/-- The retry loop performs at most `fuel` attempts. -/
theorem retryGo_length (sw : Bool) (kc : Nat) (pick : Nat → Nat) (oc : Nat → Bool) :
    ∀ (fuel attempt : Nat) (ki : Int),
      (retryGo sw kc pick oc fuel attempt ki).1.length ≤ fuel := by
  intro fuel
  induction fuel with
  | zero => intro _ _; simp [retryGo]
  | succ fuel ih =>
    intro attempt ki
    by_cases h : oc attempt
    · simp [retryGo, h]
    · simp only [retryGo, h, if_false, Bool.false_eq_true]
      simpa using ih (attempt + 1) _

/-- A first success at relative attempt `m` stops the loop after exactly
`m + 1` attempts, with overall success. -/
theorem retryGo_first_success (sw : Bool) (kc : Nat) (pick : Nat → Nat) (oc : Nat → Bool) :
    ∀ (m fuel attempt : Nat) (ki : Int), m < fuel →
      oc (attempt + m) = true → (∀ j, j < m → oc (attempt + j) = false) →
      (retryGo sw kc pick oc fuel attempt ki).1.length = m + 1 ∧
      (retryGo sw kc pick oc fuel attempt ki).2 = true := by
  intro m
  induction m with
  | zero =>
    intro fuel attempt ki hf h0 _
    match fuel, hf with
    | fuel + 1, _ =>
      have h0 : oc attempt = true := by simpa using h0
      simp [retryGo, h0]
  | succ m ih =>
    intro fuel attempt ki hf hm hj
    match fuel, hf with
    | fuel + 1, hf =>
      have h0 : oc attempt = false := by simpa using hj 0 (by omega)
      have hm2 : oc (attempt + 1 + m) = true := by
        have : attempt + 1 + m = attempt + (m + 1) := by omega
        rw [this]; exact hm
      have hj2 : ∀ j, j < m → oc (attempt + 1 + j) = false := by
        intro j hjj
        have : attempt + 1 + j = attempt + (j + 1) := by omega
        rw [this]; exact hj (j + 1) (by omega)
      have := ih fuel (attempt + 1)
        (if sw ∧ 1 < kc then
          (NextKeyIndex kc (if ki < 0 then pick attempt else pickAuthAtIndexUsed kc ki) : Int)
        else ki) (by omega) hm2 hj2
      simp only [retryGo, h0, if_false, Bool.false_eq_true]
      simpa using this

/-- The first index of a (nonempty) trace is the index used on the first
performed attempt. -/
theorem retryGo_head (sw : Bool) (kc : Nat) (pick : Nat → Nat) (oc : Nat → Bool)
    (fuel attempt : Nat) (ki : Int) (hf : 0 < fuel) :
    (retryGo sw kc pick oc fuel attempt ki).1.head? =
      some (if ki < 0 then pick attempt else pickAuthAtIndexUsed kc ki) := by
  match fuel, hf with
  | fuel + 1, _ =>
    by_cases h : oc attempt <;> simp [retryGo, h]

/-- The clamped index of `PickAuthAtIndex` is always in range. -/
theorem pickAuthAtIndexUsed_lt (kc : Nat) (hkc : 0 < kc) (ki : Int) :
    pickAuthAtIndexUsed kc ki < kc := by
  unfold pickAuthAtIndexUsed
  split_ifs with h
  · exact hkc
  · omega

/-- With switching enabled and more than one credential, no two consecutive
attempts of the loop use the same index. -/
theorem retryGo_chain (kc : Nat) (pick : Nat → Nat) (oc : Nat → Bool)
    (hkc : 1 < kc) (hp : ∀ a, pick a < kc) :
    ∀ (fuel attempt : Nat) (ki : Int),
      List.Chain' (fun a b => a ≠ b) (retryGo true kc pick oc fuel attempt ki).1 := by
  intro fuel
  induction fuel with
  | zero => intro _ _; simp [retryGo]
  | succ fuel ih =>
    intro attempt ki
    by_cases h : oc attempt
    · simp [retryGo, h]
    · simp only [retryGo, h, if_false, Bool.false_eq_true]
      rw [List.chain'_cons']
      refine ⟨?_, by simpa using ih (attempt + 1) _⟩
      intro y hy
      set used := (if ki < 0 then pick attempt else pickAuthAtIndexUsed kc ki) with hused
      have hlt : used < kc := by
        rw [hused]; split_ifs
        · exact hp attempt
        · exact pickAuthAtIndexUsed_lt kc (by omega) ki
      match fuel with
      | 0 => simp [retryGo] at hy
      | fuel2 + 1 =>
        rw [retryGo_head true kc pick oc (fuel2 + 1) (attempt + 1) _ (by omega)] at hy
        simp only [Option.mem_def, Option.some.injEq, true_and, if_pos hkc] at hy
        have hnext : NextKeyIndex kc used = (used + 1) % kc := by
          unfold NextKeyIndex
          rw [if_neg (by omega)]
        have hnlt : (used + 1) % kc < kc := Nat.mod_lt _ (by omega)
        have hcnd : ¬ ((((used + 1) % kc : Nat) : Int) < 0 ∨
            (kc : Int) ≤ (((used + 1) % kc : Nat) : Int)) := by
          push_neg
          exact ⟨Int.natCast_nonneg _, by exact_mod_cast hnlt⟩
        have hy2 : y = (used + 1) % kc := by
          rw [hnext, if_neg (not_lt.mpr (Int.natCast_nonneg _))] at hy
          unfold pickAuthAtIndexUsed at hy
          rw [if_neg hcnd, Int.toNat_natCast] at hy
          exact hy.symm
        have hne : used ≠ (used + 1) % kc := by
          rcases Nat.lt_or_ge (used + 1) kc with hlt2 | hge
          · rw [Nat.mod_eq_of_lt hlt2]; omega
          · have he : used + 1 = kc := by omega
            rw [he, Nat.mod_self]; omega
        rw [hy2]
        exact hne

/-- Claim C4: the shared retry shell performs at most `maxRetries + 1`
attempts, stops at the first successful attempt (performing exactly the
attempts up to it and reporting success), and, with credential switching
enabled over a pool of more than one credential, never uses the same
credential index on two consecutive attempts. -/
theorem retryLoop_contract (maxRetries keyCount : Nat) (switchKey : Bool)
    (pick : Nat → Nat) (outcome : Nat → Bool)
    (hp : ∀ a, pick a < keyCount) :
    (retryAttempts maxRetries switchKey keyCount pick outcome).1.length ≤ maxRetries + 1 ∧
    (∀ m, m ≤ maxRetries → outcome m = true → (∀ j, j < m → outcome j = false) →
      (retryAttempts maxRetries switchKey keyCount pick outcome).1.length = m + 1 ∧
      (retryAttempts maxRetries switchKey keyCount pick outcome).2 = true) ∧
    (switchKey = true → 1 < keyCount →
      List.Chain' (fun a b => a ≠ b)
        (retryAttempts maxRetries switchKey keyCount pick outcome).1) := by
  refine ⟨retryGo_length _ _ _ _ _ _ _, ?_, ?_⟩
  · intro m hm hmo hj
    exact retryGo_first_success switchKey keyCount pick outcome m (maxRetries + 1) 0 (-1)
      (by omega) (by simpa using hmo) (by simpa using hj)
  · intro hsw hkc2
    subst hsw
    exact retryGo_chain keyCount pick outcome hkc2 hp (maxRetries + 1) 0 (-1)

/-- Witness for C4: three keys, switching on, first two attempts fail. -/
theorem retryLoop_contract_witness :
    (retryAttempts 3 true 3 (fun _ => 0) (fun a => decide (a = 2))).1.length ≤ 4 ∧
    List.Chain' (fun a b => a ≠ b)
      (retryAttempts 3 true 3 (fun _ => 0) (fun a => decide (a = 2))).1 := by
  have h := retryLoop_contract 3 3 true (fun _ => 0) (fun a => decide (a = 2))
    (fun _ => Nat.succ_pos 2)
  exact ⟨h.1, h.2.2 rfl (by decide)⟩

/-! ### C9: system turns in message conversion -/

/-- Prepending a non-system message leaves the system-instruction parts
unchanged. -/
theorem convertMessages_fst_cons_nonsystem (up : OAIContent → List GPart)
    (msg : OAIMessage) (h : ¬ msg.role = "system") (l : List OAIMessage) :
    (convertMessages up (msg :: l)).1 = (convertMessages up l).1 := by
  simp only [convertMessages, h]
  split_ifs <;> simp_all

/-- The translated turn sequence for `msg :: l` depends on `l` only through
the translated turn sequence of `l`. -/
theorem convertMessages_snd_cons (up : OAIContent → List GPart) (msg : OAIMessage)
    (l₁ l₂ : List OAIMessage)
    (h2 : (convertMessages up l₁).2 = (convertMessages up l₂).2) :
    (convertMessages up (msg :: l₁)).2 = (convertMessages up (msg :: l₂)).2 := by
  simp only [convertMessages]
  split_ifs <;> simp [h2]

/-- Claim C9 (amended): the message conversion removes every system turn
from the translated turn sequence, and the system-instruction part list
consists of one text part per system turn with non-empty extracted text, in
order — the turns are not newline-joined into a single text. -/
theorem convertMessages_system (userParts : OAIContent → List GPart)
    (msgs : List OAIMessage) :
    (convertMessages userParts msgs).2 =
      (convertMessages userParts (msgs.filter (fun m => m.role != "system"))).2 ∧
    (convertMessages userParts msgs).1 =
      (((msgs.filter (fun m => m.role == "system")).map
        (fun m => extractTextContent m.content)).filter
          (fun t => t != "")).map GPart.text := by
  induction msgs with
  | nil => simp [convertMessages]
  | cons msg rest ih =>
    obtain ⟨ih1, ih2⟩ := ih
    refine ⟨?_, ?_⟩
    · by_cases hs : msg.role = "system"
      · rw [List.filter_cons_of_neg (by simp [hs])]
        have hl : (convertMessages userParts (msg :: rest)).2 =
            (convertMessages userParts rest).2 := by
          simp [convertMessages, hs]
        rw [hl, ih1]
      · rw [List.filter_cons_of_pos (by simp [hs])]
        exact convertMessages_snd_cons userParts msg rest _ ih1
    · by_cases hs : msg.role = "system"
      · rw [List.filter_cons_of_pos (by simp [hs])]
        by_cases ht : extractTextContent msg.content = ""
        · simp [convertMessages, hs, ht, ih2]
        · simp [convertMessages, hs, ht, ih2]
      · rw [List.filter_cons_of_neg (by simp [hs])]
        rw [convertMessages_fst_cons_nonsystem userParts msg hs rest, ih2]

/-- Counterexample for C9 as stated: two system turns `"A"` and `"B"`
produce two separate system-instruction parts, not the single newline-joined
text the claim describes. -/
theorem convertMessages_not_newline_joined :
    (convertMessages (fun _ => [])
      [⟨"system", .str "A", "", []⟩, ⟨"system", .str "B", "", []⟩]).1 =
      [GPart.text "A", GPart.text "B"] ∧
    (convertMessages (fun _ => [])
      [⟨"system", .str "A", "", []⟩, ⟨"system", .str "B", "", []⟩]).1 ≠
      systemInstructionJoined [⟨"system", .str "A", "", []⟩, ⟨"system", .str "B", "", []⟩] := by
  constructor
  · decide
  · decide

/-! ### Streaming splitter: basic facts about the delimiters -/

theorem openTag_length : openTag.length = 18 := by decide

theorem closeTag_length : closeTag.length = 19 := by decide

theorem openTag_nrh : NoRepeatHead openTag := by
  unfold NoRepeatHead
  decide

theorem closeTag_nrh : NoRepeatHead closeTag := by
  unfold NoRepeatHead
  decide

/-! ### Streaming splitter: properties of strIndex -/

/-- The pattern occurs at the index `strIndex` returns. -/
theorem strIndex_some_occ {pat l : List Char} {i : Nat}
    (h : strIndex pat l = some i) : pat <+: l.drop i := by
  induction l generalizing i with
  | nil =>
    unfold strIndex at h
    split_ifs at h with hp
    cases h
    simp [hp]
  | cons c rest ih =>
    unfold strIndex at h
    split_ifs at h with hp
    · cases h
      rw [List.drop_zero]
      exact List.isPrefixOf_iff_prefix.mp hp
    · cases hrec : strIndex pat rest with
      | none => rw [hrec] at h; cases h
      | some j =>
        rw [hrec] at h
        simp at h
        subst h
        rw [List.drop_succ_cons]
        exact ih hrec

/-- `strIndex` returns the first occurrence. -/
theorem strIndex_some_min {pat l : List Char} {i : Nat}
    (h : strIndex pat l = some i) : ∀ j < i, ¬ pat <+: l.drop j := by
  induction l generalizing i with
  | nil =>
    unfold strIndex at h
    split_ifs at h with hp
    cases h
    omega
  | cons c rest ih =>
    unfold strIndex at h
    split_ifs at h with hp
    · cases h; omega
    · cases hrec : strIndex pat rest with
      | none => rw [hrec] at h; cases h
      | some j0 =>
        rw [hrec] at h
        simp at h
        subst h
        intro j hj
        match j with
        | 0 =>
          rw [List.drop_zero]
          exact fun hc => hp (List.isPrefixOf_iff_prefix.mpr hc)
        | j + 1 =>
          rw [List.drop_succ_cons]
          exact ih hrec j (by omega)

/-- When `strIndex` fails there is no occurrence. -/
theorem strIndex_none {pat l : List Char} (h : strIndex pat l = none) :
    ∀ i, ¬ pat <+: l.drop i := by
  induction l with
  | nil =>
    unfold strIndex at h
    split_ifs at h with hp
    intro i hc
    rw [List.drop_nil] at hc
    exact hp (List.prefix_nil.mp hc)
  | cons c rest ih =>
    unfold strIndex at h
    split_ifs at h with hp
    cases hrec : strIndex pat rest with
    | some j => rw [hrec] at h; cases h
    | none =>
      intro i
      match i with
      | 0 =>
        rw [List.drop_zero]
        exact fun hc => hp (List.isPrefixOf_iff_prefix.mpr hc)
      | i + 1 =>
        rw [List.drop_succ_cons]
        exact ih hrec i

/-- The returned index stays within the text. -/
theorem strIndex_some_le {pat l : List Char} {i : Nat}
    (h : strIndex pat l = some i) : i ≤ l.length := by
  induction l generalizing i with
  | nil =>
    unfold strIndex at h
    split_ifs at h with hp
    cases h
    simp
  | cons c rest ih =>
    unfold strIndex at h
    split_ifs at h with hp
    · cases h; simp
    · cases hrec : strIndex pat rest with
      | none => rw [hrec] at h; cases h
      | some j =>
        rw [hrec] at h
        simp at h
        subst h
        have := ih hrec
        simp only [List.length_cons]
        omega

/-- The occurrence fits inside the text. -/
theorem strIndex_some_bound {pat l : List Char} {i : Nat}
    (h : strIndex pat l = some i) : i + pat.length ≤ l.length := by
  have h1 := (strIndex_some_occ h).length_le
  rw [List.length_drop] at h1
  have h2 := strIndex_some_le h
  omega

/-- Converse characterisation: the first occurrence determines `strIndex`. -/
theorem strIndex_of_prefix_min {pat l : List Char} {i : Nat}
    (h1 : pat <+: l.drop i) (h2 : ∀ j < i, ¬ pat <+: l.drop j) :
    strIndex pat l = some i := by
  cases h : strIndex pat l with
  | none => exact absurd h1 (strIndex_none h i)
  | some j =>
    rcases lt_trichotomy j i with hj | hj | hj
    · exact absurd (strIndex_some_occ h) (h2 j hj)
    · rw [hj]
    · exact absurd h1 (strIndex_some_min h i hj)

/-- An occurrence that fits inside `u` is unaffected by appending `x`. -/
theorem prefix_drop_append {pat u x : List Char} {i : Nat}
    (hi : i + pat.length ≤ u.length) :
    pat <+: (u ++ x).drop i ↔ pat <+: u.drop i := by
  rw [List.drop_append_of_le_length (by omega)]
  constructor
  · intro h
    have hl : pat.length ≤ (u.drop i).length := by
      rw [List.length_drop]; omega
    have he := List.prefix_iff_eq_take.mp h
    rw [List.take_append_of_le_length hl] at he
    rw [he]
    exact List.take_prefix _ _
  · intro h
    exact h.trans (List.prefix_append _ x)

/-- Occurrences in a dropped text are shifted occurrences. -/
theorem prefix_drop_shift {pat l : List Char} {k i : Nat} (hk : k ≤ i) :
    pat <+: (l.drop k).drop (i - k) ↔ pat <+: l.drop i := by
  rw [List.drop_drop]
  have : k + (i - k) = i := by omega
  rw [this]

/-- A first occurrence inside `u` is the first occurrence in `u ++ x`. -/
theorem strIndex_append_some {pat u x : List Char} {i : Nat}
    (h : strIndex pat u = some i) : strIndex pat (u ++ x) = some i := by
  have hb := strIndex_some_bound h
  apply strIndex_of_prefix_min
  · exact (prefix_drop_append hb).mpr (strIndex_some_occ h)
  · intro j hj hc
    exact strIndex_some_min h j hj ((prefix_drop_append (by omega)).mp hc)

/-- Dropping a prefix before the first occurrence shifts `strIndex`. -/
theorem strIndex_drop_some {pat l : List Char} {i k : Nat}
    (h : strIndex pat l = some i) (hk : k ≤ i) :
    strIndex pat (l.drop k) = some (i - k) := by
  apply strIndex_of_prefix_min
  · exact (prefix_drop_shift hk).mpr (strIndex_some_occ h)
  · intro j hj hc
    rw [List.drop_drop] at hc
    exact strIndex_some_min h (k + j) (by omega) hc

/-- If `pat` does not occur in `u`, an occurrence in `u ++ x` cannot fit
inside `u`. -/
theorem strIndex_none_no_inner {pat u x : List Char} (h : strIndex pat u = none)
    {i : Nat} (hocc : pat <+: (u ++ x).drop i) (hc : i + pat.length ≤ u.length) :
    False :=
  strIndex_none h i ((prefix_drop_append hc).mp hocc)

/-- If `pat` does not occur in `u`, an occurrence of `pat` in `u ++ x`
starting strictly inside `u` leaves a suffix of `u` that is a nonempty
proper prefix of `pat`. -/
theorem sufPre_of_straddle {pat u x : List Char} (h : strIndex pat u = none)
    {i : Nat} (hocc : pat <+: (u ++ x).drop i) (hi : i < u.length) :
    SufPre pat u i := by
  have hk : u.length - i < pat.length := by
    by_contra hge
    exact strIndex_none_no_inner h hocc (by omega)
  refine ⟨hi, hk, ?_⟩
  have hdrop : (u ++ x).drop i = u.drop i ++ x :=
    List.drop_append_of_le_length (by omega)
  -- u.drop i = ((u ++ x).drop i).take (u.length - i)
  have h1 : ((u ++ x).drop i).take (u.length - i) = u.drop i := by
    rw [hdrop, List.take_append_of_le_length (by rw [List.length_drop]),
      List.take_of_length_le (by rw [List.length_drop])]
  -- and also = pat.take (u.length - i) via the occurrence
  obtain ⟨t, ht⟩ := hocc
  have h2 : ((u ++ x).drop i).take (u.length - i) = pat.take (u.length - i) := by
    rw [← ht, List.take_append_of_le_length (by omega)]
  rw [← h1, h2]

/-! ### Streaming splitter: the buffered partial-delimiter suffix -/

/-- With a `NoRepeatHead` tag, the partial-delimiter position is unique. -/
theorem sufPre_unique {tag l : List Char} (hnr : NoRepeatHead tag) {s t : Nat}
    (h1 : SufPre tag l s) (h2 : SufPre tag l t) : s = t := by
  have key : ∀ a b, SufPre tag l a → SufPre tag l b → a < b → False := by
    rintro a b ⟨ha1, ha2, ha3⟩ ⟨hb1, hb2, hb3⟩ hab
    have e1 : l[b]? = tag[b - a]? := by
      have hd : l[b]? = (l.drop a)[b - a]? := by
        rw [List.getElem?_drop]
        congr 1
        omega
      rw [hd, ha3]
      exact List.getElem?_take_of_lt (by omega)
    have e2 : l[b]? = tag[0]? := by
      have hd : l[b]? = (l.drop b)[0]? := by
        rw [List.getElem?_drop]
        simp
      rw [hd, hb3]
      exact List.getElem?_take_of_lt (by omega)
    exact hnr (b - a) (by omega) (by omega) (e1 ▸ e2)
  rcases lt_trichotomy s t with h | h | h
  · exact (key s t h1 h2 h).elim
  · exact h
  · exact (key t s h2 h1 h).elim

/-- What a successful `findPartialTagStart` means. -/
theorem findPartialTagStart_some {tag buf : List Char} {s : Nat}
    (h : findPartialTagStart tag buf = some s) : SufPre tag buf s := by
  unfold findPartialTagStart at h
  cases hf : (List.range' 1 (min (tag.length - 1) buf.length)).find?
      (fun i => buf.drop (buf.length - i) == tag.take i) with
  | none => rw [hf] at h; cases h
  | some i =>
    rw [hf] at h
    simp at h
    have hmem := List.mem_range'_1.mp (List.mem_of_find?_eq_some hf)
    have hpred : buf.drop (buf.length - i) = tag.take i := by
      simpa using List.find?_some hf
    subst h
    have hi : buf.length - (buf.length - i) = i := by omega
    exact ⟨by omega, by omega, by rw [hi]; exact hpred⟩

/-- A failed `findPartialTagStart` means there is no partial-delimiter
suffix at all. -/
theorem findPartialTagStart_none {tag buf : List Char}
    (h : findPartialTagStart tag buf = none) : ∀ s, ¬ SufPre tag buf s := by
  rintro s ⟨h1, h2, h3⟩
  unfold findPartialTagStart at h
  cases hf : (List.range' 1 (min (tag.length - 1) buf.length)).find?
      (fun i => buf.drop (buf.length - i) == tag.take i) with
  | some i => rw [hf] at h; cases h
  | none =>
    have hmem : buf.length - s ∈ List.range' 1 (min (tag.length - 1) buf.length) := by
      rw [List.mem_range'_1]
      omega
    have := List.find?_eq_none.mp hf (buf.length - s) hmem
    apply this
    have hback : buf.length - (buf.length - s) = s := by omega
    simp only [hback, h3, beq_self_eq_true]

/-- For a `NoRepeatHead` tag, `findPartialTagStart` finds the (unique)
partial-delimiter suffix whenever there is one. -/
theorem findPartialTagStart_complete {tag buf : List Char} {s : Nat}
    (hnr : NoRepeatHead tag) (hs : SufPre tag buf s) :
    findPartialTagStart tag buf = some s := by
  cases h : findPartialTagStart tag buf with
  | none => exact absurd hs (findPartialTagStart_none h s)
  | some t =>
    rw [sufPre_unique hnr (findPartialTagStart_some h) hs]

/-! ### Streaming splitter: fuel irrelevance and one-step equations -/

/-- `procLoop` does not depend on the fuel, as long as the fuel exceeds the
buffer length (each loop iteration consumes at least one character). -/
theorem procLoop_fuel_congr :
    ∀ (f g : Nat) (t : Bool) (u : List Char), u.length < f → u.length < g →
      procLoop f t u = procLoop g t u := by
  intro f
  induction f with
  | zero => intro g t u hf _; exact absurd hf (Nat.not_lt_zero _)
  | succ f ih =>
    intro g t u hf hg
    match g, hg with
    | g + 1, hg =>
      cases t with
      | true =>
        cases hc : strIndex closeTag u with
        | none => simp only [procLoop, hc]
        | some idx =>
          have hb := strIndex_some_bound hc
          have h19 : closeTag.length = 19 := closeTag_length
          simp only [procLoop, hc]
          rw [ih g false (u.drop (idx + closeTag.length))
            (by rw [List.length_drop]; omega) (by rw [List.length_drop]; omega)]
      | false =>
        cases hc : strIndex openTag u with
        | none => simp only [procLoop, hc]
        | some idx =>
          have hb := strIndex_some_bound hc
          have h18 : openTag.length = 18 := openTag_length
          simp only [procLoop, hc]
          rw [ih g true (u.drop (idx + openTag.length))
            (by rw [List.length_drop]; omega) (by rw [List.length_drop]; omega)]

/-- One-step equation: inside a region, close delimiter not found. -/
theorem procRun_true_none {u : List Char} (hc : strIndex closeTag u = none) :
    procRun true u = ⟨true, u.drop (u.length + 1 - closeTag.length), [],
      u.take (u.length + 1 - closeTag.length)⟩ := by
  unfold procRun
  simp only [procLoop, hc]

/-- One-step equation: inside a region, close delimiter found. -/
theorem procRun_true_some {u : List Char} {idx : Nat}
    (hc : strIndex closeTag u = some idx) :
    procRun true u =
      ⟨(procRun false (u.drop (idx + closeTag.length))).inTag,
       (procRun false (u.drop (idx + closeTag.length))).buffer,
       (procRun false (u.drop (idx + closeTag.length))).content,
       u.take idx ++ (procRun false (u.drop (idx + closeTag.length))).reasoning⟩ := by
  have hb := strIndex_some_bound hc
  have h19 : closeTag.length = 19 := closeTag_length
  have hfc : procLoop u.length false (u.drop (idx + closeTag.length)) =
      procRun false (u.drop (idx + closeTag.length)) :=
    procLoop_fuel_congr u.length ((u.drop (idx + closeTag.length)).length + 1) false
      (u.drop (idx + closeTag.length)) (by rw [List.length_drop]; omega) (by omega)
  show procLoop (u.length + 1) true u = _
  simp only [procLoop, hc]
  rw [hfc]

/-- One-step equation: outside a region, open delimiter not found. -/
theorem procRun_false_none {u : List Char} (ho : strIndex openTag u = none) :
    procRun false u =
      match findPartialTagStart openTag u with
      | some p => ⟨false, u.drop p, u.take p, []⟩
      | none => ⟨false, [], u, []⟩ := by
  unfold procRun
  simp only [procLoop, ho]

/-- One-step equation: outside a region, open delimiter found. -/
theorem procRun_false_some {u : List Char} {idx : Nat}
    (ho : strIndex openTag u = some idx) :
    procRun false u =
      ⟨(procRun true (u.drop (idx + openTag.length))).inTag,
       (procRun true (u.drop (idx + openTag.length))).buffer,
       u.take idx ++ (procRun true (u.drop (idx + openTag.length))).content,
       (procRun true (u.drop (idx + openTag.length))).reasoning⟩ := by
  have hb := strIndex_some_bound ho
  have h18 : openTag.length = 18 := openTag_length
  have hfc : procLoop u.length true (u.drop (idx + openTag.length)) =
      procRun true (u.drop (idx + openTag.length)) :=
    procLoop_fuel_congr u.length ((u.drop (idx + openTag.length)).length + 1) true
      (u.drop (idx + openTag.length)) (by rw [List.length_drop]; omega) (by omega)
  show procLoop (u.length + 1) false u = _
  simp only [procLoop, ho]
  rw [hfc]

/-! ### Streaming splitter: compositionality -/

/-- Helper for the outside-a-region case: if `u` contains no open delimiter
and the run on `u` keeps exactly the suffix from `p` on, then the run on
`u ++ x` is the composition of the run on `u` with the continuation on the
kept buffer plus `x`. -/
theorem procRun_false_append_no_open {u x : List Char} {p : Nat}
    (hple : p ≤ u.length)
    (ha : procRun false u = ⟨false, u.drop p, u.take p, []⟩)
    (hnocc : ∀ i < p, ¬ openTag <+: (u ++ x).drop i)
    (hnsuf : ∀ s, SufPre openTag (u ++ x) s → p ≤ s) :
    procRun false (u ++ x) =
      composeOut (procRun false u)
        (procRun (procRun false u).inTag ((procRun false u).buffer ++ x)) := by
  have h18 : openTag.length = 18 := openTag_length
  have hdk : u.drop p ++ x = (u ++ x).drop p :=
    (List.drop_append_of_le_length hple).symm
  rw [ha]
  show procRun false (u ++ x) =
    composeOut ⟨false, u.drop p, u.take p, []⟩ (procRun false (u.drop p ++ x))
  cases hcx : strIndex openTag (u ++ x) with
  | some idxL =>
    have hbL := strIndex_some_bound hcx
    have hgep : p ≤ idxL := by
      by_contra hlt
      push_neg at hlt
      exact hnocc idxL hlt (strIndex_some_occ hcx)
    have hsub : strIndex openTag (u.drop p ++ x) = some (idxL - p) := by
      rw [hdk]
      exact strIndex_drop_some hcx hgep
    rw [procRun_false_some hcx, procRun_false_some hsub]
    have he : (u.drop p ++ x).drop (idxL - p + openTag.length) =
        (u ++ x).drop (idxL + openTag.length) := by
      rw [hdk, List.drop_drop]
      congr 1
      omega
    rw [he]
    have e2 : (u ++ x).take idxL =
        u.take p ++ (u.drop p ++ x).take (idxL - p) := by
      rw [hdk]
      conv_lhs => rw [show idxL = p + (idxL - p) from by omega]
      rw [List.take_add]
      congr 1
      exact List.take_append_of_le_length hple
    simp [composeOut, e2, List.append_assoc]
  | none =>
    have hsub : strIndex openTag (u.drop p ++ x) = none := by
      cases hs : strIndex openTag (u.drop p ++ x) with
      | none => rfl
      | some j =>
        exfalso
        have hpre := strIndex_some_occ hs
        rw [hdk, List.drop_drop] at hpre
        exact strIndex_none hcx _ hpre
    rw [procRun_false_none hcx, procRun_false_none hsub]
    cases hpx : findPartialTagStart openTag (u ++ x) with
    | some s =>
      obtain ⟨hs1, hs2, hs3⟩ := findPartialTagStart_some hpx
      have hps : p ≤ s := hnsuf s (findPartialTagStart_some hpx)
      have e1 : (u ++ x).drop s = (u.drop p ++ x).drop (s - p) := by
        rw [hdk, List.drop_drop]
        congr 1
        omega
      have hsub2 : findPartialTagStart openTag (u.drop p ++ x) = some (s - p) := by
        apply findPartialTagStart_complete openTag_nrh
        refine ⟨?_, ?_, ?_⟩
        · rw [List.length_append, List.length_drop]
          rw [List.length_append] at hs1
          omega
        · rw [List.length_append, List.length_drop]
          rw [List.length_append] at hs2
          omega
        · rw [← e1, hs3]
          congr 1
          simp only [List.length_append, List.length_drop]
          omega
      have e2 : (u ++ x).take s =
          u.take p ++ (u.drop p ++ x).take (s - p) := by
        rw [hdk]
        conv_lhs => rw [show s = p + (s - p) from by omega]
        rw [List.take_add]
        congr 1
        exact List.take_append_of_le_length hple
      simp only [hpx, hsub2]
      simp [composeOut, e1, e2]
    | none =>
      have hsub2 : findPartialTagStart openTag (u.drop p ++ x) = none := by
        cases hq : findPartialTagStart openTag (u.drop p ++ x) with
        | none => rfl
        | some q =>
          exfalso
          obtain ⟨hq1, hq2, hq3⟩ := findPartialTagStart_some hq
          apply findPartialTagStart_none hpx (p + q)
          rw [List.length_append, List.length_drop] at hq1 hq2
          rw [hdk, List.drop_drop] at hq3
          refine ⟨?_, ?_, ?_⟩
          · rw [List.length_append]
            omega
          · rw [List.length_append]
            omega
          · rw [hq3]
            congr 1
            simp only [List.length_drop, List.length_append]
            omega
      simp only [hpx, hsub2]
      have e3 : u.take p ++ (u.drop p ++ x) = u ++ x := by
        rw [← List.append_assoc, List.take_append_drop]
      simp [composeOut, e3]

/-- Compositionality of the `ProcessChunk` loop: running it on `u ++ x`
equals running it on `u` and then continuing on the retained buffer
followed by `x`, concatenating the outputs. -/
theorem procRun_append (u : List Char) (t : Bool) (x : List Char) :
    procRun t (u ++ x) =
      composeOut (procRun t u)
        (procRun (procRun t u).inTag ((procRun t u).buffer ++ x)) := by
  have main : ∀ (n : Nat) (u : List Char), u.length ≤ n → ∀ (t : Bool) (x : List Char),
      procRun t (u ++ x) =
        composeOut (procRun t u)
          (procRun (procRun t u).inTag ((procRun t u).buffer ++ x)) := by
    intro n
    induction n with
    | zero =>
      intro u hu t x
      have hu0 : u = [] := List.eq_nil_of_length_eq_zero (by omega)
      subst hu0
      cases t with
      | true =>
        have h1 : procRun true ([] : List Char) = ⟨true, [], [], []⟩ := by decide
        rw [List.nil_append, h1]
        show procRun true x = composeOut ⟨true, [], [], []⟩ (procRun true ([] ++ x))
        rw [List.nil_append]
        simp [composeOut]
      | false =>
        have h1 : procRun false ([] : List Char) = ⟨false, [], [], []⟩ := by decide
        rw [List.nil_append, h1]
        show procRun false x = composeOut ⟨false, [], [], []⟩ (procRun false ([] ++ x))
        rw [List.nil_append]
        simp [composeOut]
    | succ n ih =>
      intro u hu t x
      cases t with
      | true =>
        cases hc : strIndex closeTag u with
        | some idx =>
          have hb := strIndex_some_bound hc
          have h19 : closeTag.length = 19 := closeTag_length
          have hcx : strIndex closeTag (u ++ x) = some idx := strIndex_append_some hc
          have hdx : (u ++ x).drop (idx + closeTag.length) =
              u.drop (idx + closeTag.length) ++ x :=
            List.drop_append_of_le_length (by omega)
          have htk : (u ++ x).take idx = u.take idx :=
            List.take_append_of_le_length (by omega)
          rw [procRun_true_some hcx, procRun_true_some hc, hdx, htk]
          rw [ih (u.drop (idx + closeTag.length)) (by rw [List.length_drop]; omega) false x]
          simp [composeOut, List.append_assoc]
        | none =>
          have h19 : closeTag.length = 19 := closeTag_length
          have hdk : u.drop (u.length + 1 - closeTag.length) ++ x =
              (u ++ x).drop (u.length + 1 - closeTag.length) :=
            (List.drop_append_of_le_length (by omega)).symm
          rw [procRun_true_none hc]
          show procRun true (u ++ x) =
            composeOut ⟨true, u.drop (u.length + 1 - closeTag.length), [],
                u.take (u.length + 1 - closeTag.length)⟩
              (procRun true (u.drop (u.length + 1 - closeTag.length) ++ x))
          cases hcx : strIndex closeTag (u ++ x) with
          | none =>
            have hsub : strIndex closeTag
                (u.drop (u.length + 1 - closeTag.length) ++ x) = none := by
              cases hs : strIndex closeTag
                  (u.drop (u.length + 1 - closeTag.length) ++ x) with
              | none => rfl
              | some j =>
                exfalso
                have hpre := strIndex_some_occ hs
                rw [hdk, List.drop_drop] at hpre
                exact strIndex_none hcx _ hpre
            rw [procRun_true_none hcx, procRun_true_none hsub]
            have e1 : (u ++ x).drop ((u ++ x).length + 1 - closeTag.length) =
                (u.drop (u.length + 1 - closeTag.length) ++ x).drop
                  ((u.drop (u.length + 1 - closeTag.length) ++ x).length + 1 -
                    closeTag.length) := by
              rw [hdk, List.drop_drop]
              congr 1
              simp only [List.length_append, List.length_drop]
              omega
            have e2 : (u ++ x).take ((u ++ x).length + 1 - closeTag.length) =
                u.take (u.length + 1 - closeTag.length) ++
                  (u.drop (u.length + 1 - closeTag.length) ++ x).take
                    ((u.drop (u.length + 1 - closeTag.length) ++ x).length + 1 -
                      closeTag.length) := by
              rw [hdk]
              conv_lhs => rw [show (u ++ x).length + 1 - closeTag.length =
                (u.length + 1 - closeTag.length) +
                  (((u ++ x).drop (u.length + 1 - closeTag.length)).length + 1 -
                    closeTag.length) from by
                simp only [List.length_append, List.length_drop]
                omega]
              rw [List.take_add]
              congr 1
              exact List.take_append_of_le_length (by omega)
            rw [e1, e2]
            simp [composeOut]
          | some idxL =>
            have hbL := strIndex_some_bound hcx
            have hge : u.length + 1 - closeTag.length ≤ idxL := by
              by_contra hlt
              push_neg at hlt
              exact strIndex_none_no_inner hc (strIndex_some_occ hcx) (by omega)
            have hsub : strIndex closeTag
                (u.drop (u.length + 1 - closeTag.length) ++ x) =
                some (idxL - (u.length + 1 - closeTag.length)) := by
              rw [hdk]
              exact strIndex_drop_some hcx hge
            rw [procRun_true_some hcx, procRun_true_some hsub]
            have he : (u.drop (u.length + 1 - closeTag.length) ++ x).drop
                (idxL - (u.length + 1 - closeTag.length) + closeTag.length) =
                (u ++ x).drop (idxL + closeTag.length) := by
              rw [hdk, List.drop_drop]
              congr 1
              omega
            have e2 : (u ++ x).take idxL =
                u.take (u.length + 1 - closeTag.length) ++
                  (u.drop (u.length + 1 - closeTag.length) ++ x).take
                    (idxL - (u.length + 1 - closeTag.length)) := by
              rw [hdk]
              conv_lhs => rw [show idxL = (u.length + 1 - closeTag.length) +
                (idxL - (u.length + 1 - closeTag.length)) from by omega]
              rw [List.take_add]
              congr 1
              exact List.take_append_of_le_length (by omega)
            rw [he, e2]
            simp [composeOut, List.append_assoc]
      | false =>
        cases hc : strIndex openTag u with
        | some idx =>
          have hb := strIndex_some_bound hc
          have h18 : openTag.length = 18 := openTag_length
          have hcx : strIndex openTag (u ++ x) = some idx := strIndex_append_some hc
          have hdx : (u ++ x).drop (idx + openTag.length) =
              u.drop (idx + openTag.length) ++ x :=
            List.drop_append_of_le_length (by omega)
          have htk : (u ++ x).take idx = u.take idx :=
            List.take_append_of_le_length (by omega)
          rw [procRun_false_some hcx, procRun_false_some hc, hdx, htk]
          rw [ih (u.drop (idx + openTag.length)) (by rw [List.length_drop]; omega) true x]
          simp [composeOut, List.append_assoc]
        | none =>
          cases hp : findPartialTagStart openTag u with
          | some p =>
            have hsp := findPartialTagStart_some hp
            apply procRun_false_append_no_open (p := p)
            · exact le_of_lt hsp.1
            · rw [procRun_false_none hc, hp]
            · intro i hi hocc
              have hilt : i < u.length := by
                have := hsp.1
                omega
              have hsi := sufPre_of_straddle hc hocc hilt
              have := sufPre_unique openTag_nrh hsi hsp
              omega
            · intro s hs
              by_contra hlt
              push_neg at hlt
              obtain ⟨hsA, hsB, hsC⟩ := hs
              have hslt : s < u.length := by
                have := hsp.1
                omega
              have hres : SufPre openTag u s := by
                refine ⟨hslt, ?_, ?_⟩
                · rw [List.length_append] at hsB
                  omega
                · have h1 : ((u ++ x).drop s).take (u.length - s) = u.drop s := by
                    rw [List.drop_append_of_le_length (by omega),
                      List.take_append_of_le_length (by simp),
                      List.take_of_length_le (by simp)]
                  have h2 : ((u ++ x).drop s).take (u.length - s) =
                      openTag.take (u.length - s) := by
                    rw [hsC, List.take_take]
                    congr 1
                    simp only [List.length_append]
                    omega
                  rw [← h1, h2]
              have := sufPre_unique openTag_nrh hres hsp
              omega
          | none =>
            apply procRun_false_append_no_open (p := u.length)
            · exact le_refl _
            · rw [procRun_false_none hc, hp]
              simp
            · intro i hi hocc
              exact findPartialTagStart_none hp i (sufPre_of_straddle hc hocc hi)
            · intro s hs
              by_contra hlt
              push_neg at hlt
              obtain ⟨hsA, hsB, hsC⟩ := hs
              have hres : SufPre openTag u s := by
                refine ⟨hlt, ?_, ?_⟩
                · rw [List.length_append] at hsB
                  omega
                · have h1 : ((u ++ x).drop s).take (u.length - s) = u.drop s := by
                    rw [List.drop_append_of_le_length (by omega),
                      List.take_append_of_le_length (by simp),
                      List.take_of_length_le (by simp)]
                  have h2 : ((u ++ x).drop s).take (u.length - s) =
                      openTag.take (u.length - s) := by
                    rw [hsC, List.take_take]
                    congr 1
                    simp only [List.length_append]
                    omega
                  rw [← h1, h2]
              exact findPartialTagStart_none hp s hres
  exact main u.length u (le_refl _) t x

/-- Compositionality lifted to `ProcessChunk`: processing `a ++ b` in one
call is processing `a`, then `b`, with the outputs concatenated. -/
theorem ProcessChunk_append (p : Proc) (a b : List Char) :
    ProcessChunk p (a ++ b) =
      ((ProcessChunk (ProcessChunk p a).1 b).1,
       (ProcessChunk p a).2.1 ++ (ProcessChunk (ProcessChunk p a).1 b).2.1,
       (ProcessChunk p a).2.2 ++ (ProcessChunk (ProcessChunk p a).1 b).2.2) := by
  simp only [ProcessChunk]
  rw [show p.buffer ++ (a ++ b) = (p.buffer ++ a) ++ b from
    (List.append_assoc p.buffer a b).symm]
  rw [procRun_append (p.buffer ++ a) p.inTag b]
  simp [composeOut]

/-- Merging the first two fragments does not change the total streamed
output. -/
theorem runAux_cons_append (p : Proc) (a b : List Char) (rest : List (List Char)) :
    runAux p ((a ++ b) :: rest) = runAux p (a :: b :: rest) := by
  simp only [runAux]
  rw [ProcessChunk_append]
  simp [List.append_assoc]

/-- Unfolding equation of `runAux` for a leading fragment. -/
theorem runAux_cons (p : Proc) (a : List Char) (rest : List (List Char)) :
    runAux p (a :: rest) =
      ((ProcessChunk p a).2.1 ++ (runAux (ProcessChunk p a).1 rest).1,
       (ProcessChunk p a).2.2 ++ (runAux (ProcessChunk p a).1 rest).2) := by
  simp only [runAux]

/-- Joining all fragments into one does not change the total streamed
output. -/
theorem runAux_join :
    ∀ (chunks : List (List Char)), chunks ≠ [] → ∀ (p : Proc),
      runAux p [chunks.flatten] = runAux p chunks := by
  intro chunks
  induction chunks with
  | nil => intro h; exact absurd rfl h
  | cons a rest ih =>
    intro _ p
    cases rest with
    | nil => simp [List.flatten]
    | cons b rest2 =>
      have hj : (a :: b :: rest2).flatten = a ++ (b :: rest2).flatten := rfl
      rw [hj, runAux_cons_append]
      rw [runAux_cons p a ((b :: rest2).flatten :: []), runAux_cons p a (b :: rest2)]
      rw [ih (by simp)]

/-- Claim C1: the streaming tag splitter is chunking-invariant — feeding any
list of fragments through `ProcessChunk` one at a time and flushing yields
exactly the same concatenated content and reasoning outputs as feeding their
concatenation as a single fragment. -/
theorem runStream_chunk_invariant (chunks : List (List Char)) :
    runStream chunks = runStream [chunks.flatten] := by
  cases chunks with
  | nil => decide
  | cons a rest => exact (runAux_join (a :: rest) (by simp) initProc).symm

/-! ### Streaming splitter: behaviour on well-formed region texts -/

/-- If `tag` does not occur in `o` and does not repeat its head character,
then the first occurrence of `tag` in `o ++ (tag ++ m)` is exactly at the
end of `o`. -/
theorem strIndex_clean_left {tag o m : List Char} (h : strIndex tag o = none)
    (hnr : NoRepeatHead tag) (hne : tag ≠ []) :
    strIndex tag (o ++ (tag ++ m)) = some o.length := by
  have htpos : 0 < tag.length := List.length_pos.mpr hne
  apply strIndex_of_prefix_min
  · rw [List.drop_left]
    exact List.prefix_append tag m
  · intro j hj hocc
    by_cases hk : tag.length ≤ o.length - j
    · exact strIndex_none_no_inner h hocc (by omega)
    · push_neg at hk
      obtain ⟨w, hw⟩ := hocc
      have hke : tag[o.length - j]? = tag[0]? := by
        calc tag[o.length - j]?
            = (tag ++ w)[o.length - j]? :=
              (List.getElem?_append_left (by omega)).symm
          _ = ((o ++ (tag ++ m)).drop j)[o.length - j]? := by rw [hw]
          _ = (o ++ (tag ++ m))[j + (o.length - j)]? := List.getElem?_drop _ _ _
          _ = (o ++ (tag ++ m))[o.length]? := by congr 1; omega
          _ = (tag ++ m)[o.length - o.length]? :=
              List.getElem?_append_right (le_refl _)
          _ = (tag ++ m)[0]? := by congr 1; omega
          _ = tag[0]? := List.getElem?_append_left htpos
      exact hnr (o.length - j) (by omega) (by omega) hke

/-- Total (content, reasoning) output of a single-fragment run on a
well-formed region text, including the flush: the content is the
concatenation of the outside pieces and the tail, the reasoning is the plain
concatenation of the region bodies. -/
theorem procRun_render_totals :
    ∀ (segs : List (List Char × List Char)) (tail : List Char),
      (∀ ob ∈ segs, strIndex openTag ob.1 = none ∧ strIndex closeTag ob.2 = none) →
      strIndex openTag tail = none →
      (procRun false (renderSegs segs tail)).content ++
        (FlushRemaining ⟨(procRun false (renderSegs segs tail)).inTag,
          (procRun false (renderSegs segs tail)).buffer⟩).1 =
        (segs.map Prod.fst).flatten ++ tail ∧
      (procRun false (renderSegs segs tail)).reasoning ++
        (FlushRemaining ⟨(procRun false (renderSegs segs tail)).inTag,
          (procRun false (renderSegs segs tail)).buffer⟩).2 =
        (segs.map Prod.snd).flatten := by
  intro segs
  induction segs with
  | nil =>
    intro tail _ htail
    simp only [renderSegs]
    rw [procRun_false_none htail]
    cases hp : findPartialTagStart openTag tail with
    | some p =>
      simp [FlushRemaining, List.take_append_drop]
    | none =>
      simp [FlushRemaining]
  | cons ob rest ih =>
    intro tail hwf htail
    obtain ⟨o, b⟩ := ob
    have hwo : strIndex openTag o = none := (hwf (o, b) (by simp)).1
    have hwb : strIndex closeTag b = none := (hwf (o, b) (by simp)).2
    have hwr : ∀ ob ∈ rest, strIndex openTag ob.1 = none ∧ strIndex closeTag ob.2 = none :=
      fun ob hm => hwf ob (by simp [hm])
    have hIH := ih tail hwr htail
    have hrender : renderSegs ((o, b) :: rest) tail =
        o ++ (openTag ++ (b ++ (closeTag ++ renderSegs rest tail))) := by
      simp [renderSegs]
    have hopen : strIndex openTag (o ++ (openTag ++ (b ++ (closeTag ++ renderSegs rest tail)))) =
        some o.length :=
      strIndex_clean_left hwo openTag_nrh (by decide)
    have hclose : strIndex closeTag (b ++ (closeTag ++ renderSegs rest tail)) =
        some b.length :=
      strIndex_clean_left hwb closeTag_nrh (by decide)
    rw [hrender, procRun_false_some hopen]
    have hd1 : (o ++ (openTag ++ (b ++ (closeTag ++ renderSegs rest tail)))).drop
        (o.length + openTag.length) = b ++ (closeTag ++ renderSegs rest tail) := by
      rw [List.drop_append, List.drop_left]
    rw [hd1, procRun_true_some hclose]
    have hd2 : (b ++ (closeTag ++ renderSegs rest tail)).drop
        (b.length + closeTag.length) = renderSegs rest tail := by
      rw [List.drop_append, List.drop_left]
    rw [hd2]
    have ht1 : (o ++ (openTag ++ (b ++ (closeTag ++ renderSegs rest tail)))).take o.length = o :=
      List.take_left o _
    have ht2 : (b ++ (closeTag ++ renderSegs rest tail)).take b.length = b :=
      List.take_left b _
    rw [ht1, ht2]
    simp only [List.map_cons, List.flatten_cons]
    constructor
    · rw [List.append_assoc, List.append_assoc]
      exact congrArg (o ++ ·) hIH.1
    · rw [List.append_assoc]
      exact congrArg (b ++ ·) hIH.2

/-- Claim C2 (amended): after the end-of-stream flush, the concatenated
content equals the full text with every delimiter-bounded region (delimiters
included) removed, and the concatenated reasoning equals the plain
concatenation (no separator) of the region bodies in order of appearance. -/
theorem runStream_totals (segs : List (List Char × List Char)) (tail : List Char)
    (hwf : ∀ ob ∈ segs, strIndex openTag ob.1 = none ∧ strIndex closeTag ob.2 = none)
    (htail : strIndex openTag tail = none) :
    runStream [renderSegs segs tail] =
      ((segs.map Prod.fst).flatten ++ tail, (segs.map Prod.snd).flatten) := by
  have h := procRun_render_totals segs tail hwf htail
  show runAux initProc [renderSegs segs tail] = _
  rw [runAux_cons]
  simp only [runAux, ProcessChunk, initProc, List.nil_append]
  simp only [Prod.mk.injEq]
  exact ⟨h.1, h.2⟩

/-- Witness for C2 (amended) on the spec's own scenario text. -/
theorem runStream_totals_witness :
    runStream [renderSegs [("Hello ".data, "thinking...".data)] " world".data] =
      ("Hello  world".data, "thinking...".data) := by
  have h := runStream_totals [("Hello ".data, "thinking...".data)] " world".data
    (by decide) (by decide)
  rw [h]
  decide

/-- Counterexample for C2 as stated: with two regions with bodies `"A"` and
`"B"`, the streamed reasoning output is `"AB"`, not the newline-joined
`"A\nB"` the claim describes. -/
theorem runStream_not_newline_joined :
    (runStream [renderSegs [([], "A".data), ([], "B".data)] []]).2 = "AB".data ∧
    (runStream [renderSegs [([], "A".data), ([], "B".data)] []]).2 ≠ "A\nB".data := by
  constructor
  · decide
  · decide

/-! ### C3: no partial delimiter ever reaches an output channel -/

/-- Unfolding equation of `runSoFar` for a leading fragment. -/
theorem runSoFar_cons (p : Proc) (a : List Char) (rest : List (List Char)) :
    runSoFar p (a :: rest) =
      ((runSoFar (ProcessChunk p a).1 rest).1,
       (ProcessChunk p a).2.1 ++ (runSoFar (ProcessChunk p a).1 rest).2.1,
       (ProcessChunk p a).2.2 ++ (runSoFar (ProcessChunk p a).1 rest).2.2) := by
  simp only [runSoFar]

/-- The state and pre-flush outputs after a nonempty list of fragments are
those of a single run on their concatenation. -/
theorem runSoFar_eq :
    ∀ (chunks : List (List Char)), chunks ≠ [] → ∀ (p : Proc),
      runSoFar p chunks =
        ((⟨(procRun p.inTag (p.buffer ++ chunks.flatten)).inTag,
           (procRun p.inTag (p.buffer ++ chunks.flatten)).buffer⟩ : Proc),
         (procRun p.inTag (p.buffer ++ chunks.flatten)).content,
         (procRun p.inTag (p.buffer ++ chunks.flatten)).reasoning) := by
  intro chunks
  induction chunks with
  | nil => intro h; exact absurd rfl h
  | cons a rest ih =>
    intro _ p
    cases rest with
    | nil =>
      simp only [runSoFar, List.flatten_cons, List.flatten_nil, List.append_nil]
      simp [ProcessChunk]
    | cons b rest2 =>
      rw [runSoFar_cons, ih (by simp)]
      have hass : p.buffer ++ (a :: b :: rest2).flatten =
          (p.buffer ++ a) ++ (b :: rest2).flatten := by
        rw [List.flatten_cons, List.append_assoc]
      rw [hass, procRun_append (p.buffer ++ a) p.inTag ((b :: rest2).flatten)]
      simp [ProcessChunk, composeOut]

/-- The pre-flush outputs on a text are prefixes of the pre-flush outputs on
any extension of the text. -/
theorem procRun_output_mono (t : Bool) (u x : List Char) :
    (procRun t u).content <+: (procRun t (u ++ x)).content ∧
    (procRun t u).reasoning <+: (procRun t (u ++ x)).reasoning := by
  rw [procRun_append u t x]
  simp only [composeOut]
  exact ⟨⟨_, rfl⟩, ⟨_, rfl⟩⟩

/-- Claim C3: for a well-formed region text split into fragments in any way,
at every step (after any number of `ProcessChunk` calls, before the flush)
the content emitted so far is a prefix of the delimiter-free outside text,
and the reasoning emitted so far is a prefix of the concatenated region
bodies — so no character of any (possibly split) delimiter occurrence is
ever emitted on either channel. -/
theorem runSoFar_clean_channels (segs : List (List Char × List Char))
    (tail : List Char) (chunks : List (List Char)) (k : Nat)
    (hwf : ∀ ob ∈ segs, strIndex openTag ob.1 = none ∧ strIndex closeTag ob.2 = none)
    (htail : strIndex openTag tail = none)
    (hjoin : chunks.flatten = renderSegs segs tail) :
    (runSoFar initProc (chunks.take k)).2.1 <+: (segs.map Prod.fst).flatten ++ tail ∧
    (runSoFar initProc (chunks.take k)).2.2 <+: (segs.map Prod.snd).flatten := by
  have htot := procRun_render_totals segs tail hwf htail
  have hfull1 : (procRun false (renderSegs segs tail)).content <+:
      (segs.map Prod.fst).flatten ++ tail := ⟨_, htot.1⟩
  have hfull2 : (procRun false (renderSegs segs tail)).reasoning <+:
      (segs.map Prod.snd).flatten := ⟨_, htot.2⟩
  by_cases hemp : chunks.take k = []
  · rw [hemp]
    constructor <;> simp [runSoFar]
  · rw [runSoFar_eq (chunks.take k) hemp initProc]
    have hw : (chunks.take k).flatten ++ (chunks.drop k).flatten =
        renderSegs segs tail := by
      rw [← List.flatten_append, List.take_append_drop, hjoin]
    have hmono := procRun_output_mono false ((chunks.take k).flatten)
      ((chunks.drop k).flatten)
    rw [hw] at hmono
    exact ⟨hmono.1.trans hfull1, hmono.2.trans hfull2⟩

/-- Witness for C3: the spec's scenario, with both delimiters split across
fragment boundaries, after two of the three fragments. -/
theorem runSoFar_clean_channels_witness :
    (["Hello <vertex_think_ta".data, "g>thinking...</vertex_think_ta".data,
        "g> world".data] : List (List Char)).flatten =
      renderSegs [("Hello ".data, "thinking...".data)] " world".data ∧
    (runSoFar initProc ((["Hello <vertex_think_ta".data,
        "g>thinking...</vertex_think_ta".data, "g> world".data] :
          List (List Char)).take 2)).2.2 <+:
      ([(("Hello ".data : List Char), ("thinking...".data : List Char))].map
        Prod.snd).flatten := by
  refine ⟨by decide, ?_⟩
  exact (runSoFar_clean_channels [("Hello ".data, "thinking...".data)] " world".data
    ["Hello <vertex_think_ta".data, "g>thinking...</vertex_think_ta".data,
      "g> world".data] 2 (by decide) (by decide) (by decide)).2

end VX
